import Mathlib

/-!
Verification of the beam/vehicle selection core of `paper-cmab.py`.

The development shallowly embeds the decision/allocation core of the
simulation: the per-beam `Stats` reward tracker, the CMAB arm table, the
context encoders, the four selection policies (`RandomSelection`,
`HighestCQI`, `CMAB`, `MAB`) and the connection-reference effect of one
`MyScenario.do_mobility` tick.  Simulated times and channel qualities are
rationals; Python dictionaries are partial maps (`Option`-valued
functions); a Python exception (`TypeError` on `None` arithmetic,
`KeyError` on a missing dict key) makes the embedded operation return
`none`; the global random source is an explicit list of draws.
-/

namespace PaperCmab

/-- Connection statistics of one beam: the inner class `Stats` of
`VehicleSelectionAlgorithm` with attributes `conn_start_time`,
`total_time` and `total_conn`. -/
structure Stats where
  conn_start_time : Option ℚ
  total_time : ℚ
  total_conn : ℕ
deriving DecidableEq

/-- Initial `Stats` state (`__init__`). -/
def Stats.init : Stats := ⟨none, 0, 0⟩

/-- Method `Stats.conn_begin`: store the start time.  The source performs a
plain assignment, with no check whether a connection is already open. -/
def Stats.conn_begin (t : ℚ) (s : Stats) : Stats :=
  { s with conn_start_time := some t }

/-- Method `Stats.conn_end`: add `sim_time - conn_start_time` to the total
and count the connection.  When `conn_start_time` is `None` the Python
subtraction raises a `TypeError`, modelled as `none`; on success the stored
start time is left in place (the source does not clear it). -/
def Stats.conn_end (t : ℚ) (s : Stats) : Option Stats :=
  match s.conn_start_time with
  | none => none
  | some st =>
      some { s with total_time := s.total_time + (t - st),
                    total_conn := s.total_conn + 1 }

/-- Method `Stats.get_average_connection_time`. -/
def Stats.get_average_connection_time (s : Stats) : ℚ :=
  if s.total_conn = 0 then 0 else s.total_time / s.total_conn

/-- Method `Stats.reset`: zero the two accumulators; `conn_start_time` is
not touched. -/
def Stats.reset (s : Stats) : Stats :=
  { s with total_time := 0, total_conn := 0 }

/-- CMAB's two arm dictionaries `arm_total_reward` and `arm_total_count`,
as partial maps from context key to accumulated value (`none` = the key is
absent from the dict). -/
@[ext] structure ArmTable where
  reward : String → Option ℚ
  count : String → Option ℕ

/-- Both arm dictionaries start empty (`CMAB.__init__`). -/
def ArmTable.empty : ArmTable := ⟨fun _ => none, fun _ => none⟩

/-- Initialization step of `CMAB.report_conn_confirmed`: when the context is
not yet a key of `arm_total_reward`, create zero entries in both dicts. -/
def ArmTable.ensure (t : ArmTable) (ctx : String) : ArmTable :=
  if (t.reward ctx).isNone then
    ⟨fun c => if c = ctx then some 0 else t.reward c,
     fun c => if c = ctx then some 0 else t.count c⟩
  else t

/-- Update step of `CMAB.report_conn_lost`: `arm_total_reward[ctx] += r` and
`arm_total_count[ctx] += 1`; a missing key is a Python `KeyError`, modelled
as `none` for the whole update. -/
def ArmTable.add (t : ArmTable) (ctx : String) (r : ℚ) : Option ArmTable :=
  match t.reward ctx, t.count ctx with
  | some r0, some n0 =>
      some ⟨fun c => if c = ctx then some (r0 + r) else t.reward c,
            fun c => if c = ctx then some (n0 + 1) else t.count c⟩
  | _, _ => none

/-- Arm-table effect of one completed connection: the create-if-absent step
performed by `report_conn_confirmed` followed by the accumulation step
performed by `report_conn_lost` (the spec's `Arm Table.record`). -/
def ArmTable.record (t : ArmTable) (ctx : String) (r : ℚ) : Option ArmTable :=
  (t.ensure ctx).add ctx r

/-- Method `CMAB.get_past_reward` as a function of the two arm dicts and
`self.time_unit`: `None` unless the context is a key of `arm_total_reward`
with a nonzero count, else the mean reward rescaled by the time unit.
Indexing `arm_total_count` with a key it lacks would be a `KeyError`,
modelled as `none`. -/
def ArmTable.predict (t : ArmTable) (ctx : String) (tu : ℚ) : Option ℚ :=
  match t.reward ctx with
  | none => none
  | some r =>
      match t.count ctx with
      | none => none
      | some n => if n = 0 then none else some (r / (n : ℚ) * tu)

/-- Fold a sequence of record operations over the empty arm table. -/
def armBuild (ops : List (String × ℚ)) : Option ArmTable :=
  ops.foldl (fun ot p => ot.bind (fun t => t.record p.1 p.2)) (some ArmTable.empty)

/-- Cumulative reward a history of record operations assigns to one context. -/
def histSum (ops : List (String × ℚ)) (ctx : String) : ℚ :=
  ((ops.filter (fun p => p.1 = ctx)).map (fun p => p.2)).sum

/-- Number of record operations of a history hitting one context. -/
def histCnt (ops : List (String × ℚ)) (ctx : String) : ℕ :=
  (ops.filter (fun p => p.1 = ctx)).length

/-- Closed form of the arm table built from a record history. -/
def tableOf (ops : List (String × ℚ)) : ArmTable :=
  ⟨fun c => if histCnt ops c = 0 then none else some (histSum ops c),
   fun c => if histCnt ops c = 0 then none else some (histCnt ops c)⟩

/-- Attributes of a node seen by a broadcast scan: identity, whether the
node is of vehicle type, and the mobility attributes `get_context` reads —
speed, heading azimuth, and (per beam id) the distance obtained by
`dist_by_timing_advance`. -/
structure Node where
  id : ℕ
  isVehicle : Bool
  speed : ℚ
  heading : ℚ
  distTo : ℕ → ℚ

/-- Connection references: `beam.serving_node` and `vehicle.associated_bs`,
as partial maps over beam ids and vehicle ids. -/
structure ConnState where
  serving : ℕ → Option ℕ
  assoc : ℕ → Option ℕ

/-- Physical-layer collaborators, external to the core: broadcast discovery
of reachable nodes, the beacon-reply unicast used by `HighestCQI` and CMAB
exploitation, and the `send_hello_to` handshake used by `RandomSelection`
and by the liveness check (`none` = failure, `some q` = success with cqi
`q`). -/
structure Env where
  discover : ℕ → List (Node × ℚ)
  reply : ℕ → ℕ → Option ℚ
  hello : ℕ → ℕ → Option ℚ

/-- Candidate pairing as returned by `do_pairing`: `(beam, vehicle, cqi)`. -/
abbrev Cand := ℕ × Node × ℚ

/-- Eligible `(vehicle, cqi)` list of one beam under `HighestCQI`-style
probing: keep nodes of vehicle type, currently unserved, whose beacon
reply arrives. -/
def eligibleH (env : Env) (conn : ConnState) (b : ℕ) : List (Node × ℚ) :=
  (env.discover b).filterMap (fun p =>
    if p.1.isVehicle then
      if (conn.assoc p.1.id).isSome then none
      else (env.reply b p.1.id).map (fun q => (p.1, q))
    else none)

/-- The `available_vehicle_list` of one beam under `RandomSelection`
probing: the same filters, with the `send_hello_to` handshake. -/
def eligibleR (env : Env) (conn : ConnState) (b : ℕ) : List (Node × ℚ) :=
  (env.discover b).filterMap (fun p =>
    if p.1.isVehicle then
      if (conn.assoc p.1.id).isSome then none
      else (env.hello b p.1.id).map (fun q => (p.1, q))
    else none)

/-- Beams currently idle: `beam.serving_node == None`. -/
def availOf (conn : ConnState) (beams : List ℕ) : List ℕ :=
  beams.filter (fun b => (conn.serving b).isNone)

/-- Flattened, encounter-ordered candidate list of the nested
beam/vehicle scan loops of `HighestCQI.do_pairing` and of CMAB
exploitation. -/
def candsH (env : Env) (conn : ConnState) (avail : List ℕ) : List Cand :=
  avail.flatMap (fun b => (eligibleH env conn b).map (fun vq => (b, vq.1, vq.2)))

/-- Accumulator step of the `HighestCQI` scan: keep the new pair on the
first cqi seen or on a strictly higher cqi (`max_cqi is None or
cqi > max_cqi`). -/
def hstep (acc : Option ℚ × Option Cand) (c : Cand) : Option ℚ × Option Cand :=
  match acc.1 with
  | none => (some c.2.2, some c)
  | some m => if c.2.2 > m then (some c.2.2, some c) else acc

/-- Method `HighestCQI.do_pairing`. -/
def highestCQI_do_pairing (env : Env) (conn : ConnState) (beams : List ℕ) :
    Option Cand :=
  let avail := availOf conn beams
  if avail.isEmpty then none
  else ((candsH env conn avail).foldl hstep (none, none)).2

/-- Inner while-loop of `RandomSelection.do_pairing`: choose a beam from
the remaining available ones with the next random draw (index modulo list
size), probe its vehicles, choose one of them with the following draw;
a beam with no eligible vehicle is removed and the loop retries.  Returns
the selection and the unconsumed random draws. -/
def randGo (env : Env) (conn : ConnState) :
    List ℕ → List ℕ → Option Cand × List ℕ
  | [], rand => (none, rand)
  | a :: rest, rand =>
      let b := (a :: rest).get ⟨(rand.headD 0) % (a :: rest).length,
                                Nat.mod_lt _ (Nat.succ_pos _)⟩
      let vl := eligibleR env conn b
      if h : vl.length = 0 then
        randGo env conn ((a :: rest).erase b) rand.tail
      else
        let nv := vl.get ⟨(rand.tail.headD 0) % vl.length,
                          Nat.mod_lt _ (Nat.pos_of_ne_zero h)⟩
        (some (b, nv.1, nv.2), rand.tail.tail)
termination_by avail _ => avail.length
decreasing_by
  simp only [List.length_erase_of_mem (List.get_mem _ _ _), List.length_cons]
  exact Nat.lt_succ_self _

/-- Method `RandomSelection.do_pairing`. -/
def random_do_pairing (env : Env) (conn : ConnState) (beams : List ℕ)
    (rand : List ℕ) : Option Cand × List ℕ :=
  randGo env conn (availOf conn beams) rand

/-- Speed bucket of `CMAB.get_context`. -/
def speed_bucket (s : ℚ) : String :=
  if s < 40 then "slow" else if s < 50 then "med " else "fast"

/-- Distance bucket of `CMAB.get_context`. -/
def dist_bucket (d : ℚ) : String :=
  if d < 180 then "near" else if d < 360 then "med " else "far "

/-- Direction bucket of `CMAB.get_context`: the unrolled
`for i in range(4)` loop with `dir_width = 360/4 = 90`, returning the
first sector index `i+1` with `dir <= 90*(i+1)`, and `none` when the loop
falls through without a match. -/
def dir_bucket (dir : ℚ) : Option ℕ :=
  if dir ≤ 90 then some 1
  else if dir ≤ 180 then some 2
  else if dir ≤ 270 then some 3
  else if dir ≤ 360 then some 4
  else none

/-- Method `CMAB.get_context`, with `self.use_speed` passed explicitly.
The `"%02d"` format applied to a sector index `1..4` prints `0` followed
by the digit; when the direction loop falls through, no `dir` component
(and no closing bracket) is appended. -/
def cmab_get_context (useSpeed : Bool) (b : ℕ) (v : Node) (_cqi : ℚ) : String :=
  let s0 := "[" ++ toString b ++ "; "
  let s1 := if useSpeed then s0 ++ "speed=" ++ speed_bucket v.speed ++ "; " else s0
  let s2 := s1 ++ "dist=" ++ dist_bucket (v.distTo b) ++ "; "
  match dir_bucket v.heading with
  | some k => s2 ++ "dir=0" ++ toString k ++ "]"
  | none => s2

/-- Method `MAB.get_context`: the arm is just the beam, the vehicle profile
is ignored entirely. -/
def mab_get_context (_useSpeed : Bool) (b : ℕ) (_v : Node) (_cqi : ℚ) : String :=
  "[" ++ toString b ++ "]"

/-- Type of the `get_context` method, abstracted so that the `CMAB`
operations can be instantiated with the `MAB` override. -/
abbrev CtxEncoder := Bool → ℕ → Node → ℚ → String

/-- Mutable attributes of a `CMAB` instance, together with the per-beam
`Stats` pair inherited from `VehicleSelectionAlgorithm`. -/
structure CMABState where
  arms : ArmTable
  armInfo : ℕ → Option (String × ℚ)
  totalPulled : ℕ
  timeUnit : ℚ
  explorationStopTime : ℚ
  useSpeed : Bool
  stats : ℕ → Stats
  stats2 : ℕ → Stats

/-- Method `CMAB.get_past_reward` on the instance state. -/
def get_past_reward (st : CMABState) (ctx : String) : Option ℚ :=
  st.arms.predict ctx st.timeUnit

/-- Method `CMAB.report_conn_confirmed`: begin both inherited `Stats` of
the beam, create zero arm entries for a fresh context, and remember
`(context, start_time)` for the vehicle in `arm_info`. -/
def report_conn_confirmed (getCtx : CtxEncoder) (st : CMABState) (t : ℚ)
    (b : ℕ) (v : Node) (cqi : ℚ) : CMABState :=
  let ctx := getCtx st.useSpeed b v cqi
  { st with
    stats := fun b' => if b' = b then (st.stats b).conn_begin t else st.stats b',
    stats2 := fun b' => if b' = b then (st.stats2 b).conn_begin t else st.stats2 b',
    arms := st.arms.ensure ctx,
    armInfo := fun w => if w = v.id then some (ctx, t) else st.armInfo w }

/-- Method `CMAB.report_conn_lost`: end both inherited `Stats` of the beam,
look up the pending `(context, start_time)` of the vehicle in `arm_info`,
and add the realized connection duration to the arm table.  Each Python
`TypeError`/`KeyError` is modelled as `none` for the whole call. -/
def report_conn_lost (st : CMABState) (t : ℚ) (b : ℕ) (v : Node) :
    Option CMABState := do
  let s1 ← (st.stats b).conn_end t
  let s2 ← (st.stats2 b).conn_end t
  let (ctx, t0) ← st.armInfo v.id
  let arms' ← st.arms.add ctx (t - t0)
  some { st with
    stats := fun b' => if b' = b then s1 else st.stats b',
    stats2 := fun b' => if b' = b then s2 else st.stats2 b',
    arms := arms' }

/-- Predicted reward of one scan candidate during CMAB exploitation. -/
def predOf (getCtx : CtxEncoder) (st : CMABState) (c : Cand) : Option ℚ :=
  get_past_reward st (getCtx st.useSpeed c.1 c.2.1 c.2.2)

/-- Accumulator step of the CMAB exploitation scan: keep the candidate on a
predicted reward that is defined and strictly above the running highest
(initially `-1`). -/
def estep (getCtx : CtxEncoder) (st : CMABState) (acc : ℚ × Option Cand)
    (c : Cand) : ℚ × Option Cand :=
  match predOf getCtx st c with
  | none => acc
  | some p => if p > acc.1 then (p, some c) else acc

/-- Candidate list scanned by CMAB exploitation (the same probing as
`HighestCQI`). -/
def cmabCands (env : Env) (conn : ConnState) (beams : List ℕ) : List Cand :=
  candsH env conn (availOf conn beams)

/-- Method `CMAB.do_pairing`, parameterized by the context encoder
(`self.get_context`, overridden in `MAB`): before the exploration stop
time delegate to `RandomSelection.do_pairing` and count the pull; after it,
scan as `HighestCQI` does but rank by predicted reward, counting the pull —
except that an empty available-beam list returns early, before the counter
update.  Returns the pair, the new instance state and the unconsumed
random draws. -/
def cmab_do_pairing (getCtx : CtxEncoder) (env : Env) (conn : ConnState)
    (beams : List ℕ) (st : CMABState) (rand : List ℕ) (t : ℚ) :
    Option Cand × CMABState × List ℕ :=
  if t < st.explorationStopTime then
    let r := random_do_pairing env conn beams rand
    (r.1, { st with totalPulled := st.totalPulled + 1 }, r.2)
  else
    let avail := availOf conn beams
    if avail.isEmpty then (none, st, rand)
    else
      let r := (candsH env conn avail).foldl (estep getCtx st) (-1, none)
      (r.2, { st with totalPulled := st.totalPulled + 1 }, rand)

/-- Class `MAB`: `CMAB` with `get_context` overridden; `do_pairing` is
inherited, i.e. the `CMAB` operation instantiated with `mab_get_context`. -/
def mab_do_pairing (env : Env) (conn : ConnState) (beams : List ℕ)
    (st : CMABState) (rand : List ℕ) (t : ℚ) :
    Option Cand × CMABState × List ℕ :=
  cmab_do_pairing mab_get_context env conn beams st rand t

/-- Class `MAB`: inherited `report_conn_confirmed` under the overridden
encoder. -/
def mab_report_conn_confirmed (st : CMABState) (t : ℚ) (b : ℕ) (v : Node)
    (cqi : ℚ) : CMABState :=
  report_conn_confirmed mab_get_context st t b v cqi

/-- Methods `MyBaseStationBeam.lost_vehicle` and `MyVehicle.lost_bs`, for a
beam `b` currently serving vehicle `v` (the only situation in which
`do_mobility` invokes them): clear both references. -/
def lost_vehicle (conn : ConnState) (b v : ℕ) : ConnState :=
  ⟨fun b' => if b' = b then none else conn.serving b',
   fun v' => if v' = v then none else conn.assoc v'⟩

/-- Methods `MyBaseStationBeam.connect_vehicle` and
`MyVehicle.connect_bs`: set both references. -/
def connect_vehicle (conn : ConnState) (b v : ℕ) : ConnState :=
  ⟨fun b' => if b' = b then some v else conn.serving b',
   fun v' => if v' = v then some b else conn.assoc v'⟩

/-- Release phase of `MyScenario.do_mobility`: probe each serving beam's
liveness with `send_hello_to` and release the connection on failure (the
policy's `report_conn_lost` bookkeeping does not touch the serving and
association references projected here). -/
def do_release (env : Env) (beams : List ℕ) (conn : ConnState) : ConnState :=
  beams.foldl (fun c b =>
    match c.serving b with
    | none => c
    | some v => if (env.hello b v).isSome then c else lost_vehicle c b v) conn

/-- Count of currently active beams, computed between the release and the
fill phase of `do_mobility`. -/
def activeCount (beams : List ℕ) (conn : ConnState) : ℕ :=
  (beams.filter (fun b => (conn.serving b).isSome)).length

/-- Fill phase of `MyScenario.do_mobility`: while free capacity remains,
ask the active policy for a pairing and commit it; stop on `none`.  One
`step` is a `do_pairing` call together with the policy's own
`report_conn_confirmed` bookkeeping on its private state `σ` (which does
not touch the connection references); the fuel is the free capacity. -/
def do_fill {σ : Type} (step : ConnState → σ → Option Cand × σ) :
    ℕ → ConnState → σ → ConnState × σ
  | 0, conn, s => (conn, s)
  | n + 1, conn, s =>
      match step conn s with
      | (none, s') => (conn, s')
      | (some (b, v, _q), s') => do_fill step n (connect_vehicle conn b v.id) s'

/-- Connection-reference effect of one `MyScenario.do_mobility` tick:
release dead connections, then fill the free capacity up to
`max_active_beam`. -/
def do_mobility {σ : Type} (env : Env) (beams : List ℕ) (maxActive : ℕ)
    (step : ConnState → σ → Option Cand × σ) (conn : ConnState) (s : σ) :
    ConnState × σ :=
  let c1 := do_release env beams conn
  do_fill step (maxActive - activeCount beams c1) c1 s

/-- Idle beam, as the code tests it: `beam.serving_node == None`. -/
def beamIdle (conn : ConnState) (b : ℕ) : Prop := conn.serving b = none

/-- The 1:1 reference invariant: `serving` and `assoc` are mutual
inverses. -/
def Inv (conn : ConnState) : Prop :=
  (∀ b v, conn.serving b = some v → conn.assoc v = some b) ∧
  (∀ v b, conn.assoc v = some b → conn.serving b = some v)

/-- Eligibility of the pairs a policy step returns: a served beam or a
served vehicle is never proposed. -/
def SoundStep {σ : Type} (step : ConnState → σ → Option Cand × σ) : Prop :=
  ∀ conn s b v q s', step conn s = (some (b, v, q), s') →
    conn.serving b = none ∧ conn.assoc v.id = none

/-- Policy step of a `HighestCQI` run (stateless beyond the references). -/
def highestStep (env : Env) (beams : List ℕ) :
    ConnState → Unit → Option Cand × Unit :=
  fun conn _ => (highestCQI_do_pairing env conn beams, ())

/-- Policy step of a `RandomSelection` run: the policy state is the
unconsumed random stream. -/
def randomStep (env : Env) (beams : List ℕ) :
    ConnState → List ℕ → Option Cand × List ℕ :=
  fun conn rand => random_do_pairing env conn beams rand

/-- Policy step of a `CMAB` (or, with `mab_get_context`, `MAB`) run at one
tick: `do_pairing` followed, on success, by the `report_conn_confirmed`
bookkeeping. -/
def cmabStep (getCtx : CtxEncoder) (env : Env) (beams : List ℕ) (t : ℚ) :
    ConnState → CMABState × List ℕ → Option Cand × (CMABState × List ℕ) :=
  fun conn p =>
    match cmab_do_pairing getCtx env conn beams p.1 p.2 t with
    | (none, st', rand') => (none, (st', rand'))
    | (some (b, v, q), st', rand') =>
        (some (b, v, q), (report_conn_confirmed getCtx st' t b v q, rand'))

/-- Concrete vehicle-type node used by the worked examples. -/
def exNode (i : ℕ) : Node := ⟨i, true, 0, 0, fun _ => 0⟩

/-- Connection state with no references set. -/
def connEmpty : ConnState := ⟨fun _ => none, fun _ => none⟩

/-- Environment realizing the spec's worked example: beams `1`, `2`, `3`
each discover one vehicle, whose probes yield qualities `10`, `25`, `25`
respectively. -/
def exEnv : Env :=
  ⟨fun b => [(exNode (10 + b), 0)],
   fun b _ => if b = 1 then some 10 else if b = 2 then some 25 else
              if b = 3 then some 25 else none,
   fun b _ => if b = 1 then some 10 else if b = 2 then some 25 else
              if b = 3 then some 25 else none⟩

/-- Environment in which nothing is reachable. -/
def env0 : Env := ⟨fun _ => [], fun _ _ => none, fun _ _ => none⟩

/-- Fresh `CMAB` instance state: empty arm table, no pending connections,
`time_unit = 1`, exploration stop time `0` (always exploiting). -/
def st0 : CMABState :=
  ⟨ArmTable.empty, fun _ => none, 0, 1, 0, false,
   fun _ => Stats.init, fun _ => Stats.init⟩

/-- Fresh `CMAB` instance state still in its exploration phase
(exploration stop time `10`). -/
def st2 : CMABState :=
  ⟨ArmTable.empty, fun _ => none, 0, 1, 10, false,
   fun _ => Stats.init, fun _ => Stats.init⟩

/-- `CMAB` instance state with one recorded context `"k"` (total reward 2,
one pull), a pending connection of vehicle `5` begun at time `3` under
context `"k"`, and open per-beam statistics started at time `3`. -/
def st1 : CMABState :=
  ⟨⟨fun c => if c = "k" then some 2 else none,
    fun c => if c = "k" then some 1 else none⟩,
   fun w => if w = 5 then some ("k", 3) else none,
   0, 1, 0, false,
   fun _ => ⟨some 3, 0, 0⟩, fun _ => ⟨some 3, 0, 0⟩⟩

/-! ### Reward tracker (claims C7 and C8) -/

/-- Claim C7 as stated is false on the code: `conn_begin` on a tracker with
an open connection (start time `some 2`) silently proceeds and overwrites
the start time instead of failing, and a successful `conn_end` leaves the
stored start time `some 3` in place instead of clearing it. -/
theorem stats_C7_counterexample :
    Stats.conn_begin 5 ⟨some 2, 0, 0⟩ = ⟨some 5, 0, 0⟩ ∧
    Stats.conn_end 7 ⟨some 3, 1, 1⟩ = some ⟨some 3, 5, 2⟩ := by
  refine ⟨rfl, ?_⟩
  simp only [Stats.conn_end, Option.some.injEq, Stats.mk.injEq]
  norm_num

/-- Claim C7 (amended): `conn_begin` never fails — it overwrites the start
time even when a connection is already open; `conn_end` with no open
connection fails loudly (`TypeError` on `None`, modelled `none`); a
successful `conn_end` adds `time - start` to the cumulative duration and
increments the count, but leaves the stored start time unchanged. -/
theorem stats_begin_end_spec (s : Stats) (t : ℚ) :
    Stats.conn_begin t s = ⟨some t, s.total_time, s.total_conn⟩ ∧
    (Stats.conn_end t s = none ↔ s.conn_start_time = none) ∧
    (∀ t0, s.conn_start_time = some t0 →
      Stats.conn_end t s
        = some ⟨some t0, s.total_time + (t - t0), s.total_conn + 1⟩) := by
  obtain ⟨cst, tt, tc⟩ := s
  refine ⟨rfl, ?_, ?_⟩
  · cases cst <;> simp [Stats.conn_end]
  · rintro t0 rfl
    rfl

/-- Witness for C7's amended theorem at a concrete open tracker. -/
theorem stats_begin_end_spec_witness :
    Stats.conn_end 7 ⟨some 3, 1, 1⟩ = some ⟨some 3, 1 + (7 - 3), 1 + 1⟩ :=
  (stats_begin_end_spec ⟨some 3, 1, 1⟩ 7).2.2 3 rfl

/-- Claim C8: `reset` zeroes the cumulative duration and count but leaves
the open-connection start time unchanged, so an `end` after a `reset`
still adds exactly `time - original start` to the post-reset total. -/
theorem stats_reset_spec (s : Stats) (t t0 : ℚ) :
    s.reset.total_time = 0 ∧ s.reset.total_conn = 0 ∧
    s.reset.conn_start_time = s.conn_start_time ∧
    (s.conn_start_time = some t0 →
      Stats.conn_end t s.reset = some ⟨some t0, t - t0, 1⟩) := by
  obtain ⟨cst, tt, tc⟩ := s
  refine ⟨rfl, rfl, rfl, ?_⟩
  rintro rfl
  simp [Stats.conn_end, Stats.reset]

/-- Witness for C8 at a concrete tracker with accumulated history. -/
theorem stats_reset_spec_witness :
    (Stats.reset ⟨some 3, 9, 4⟩).total_time = 0 ∧
    (Stats.reset ⟨some 3, 9, 4⟩).total_conn = 0 ∧
    (Stats.reset ⟨some 3, 9, 4⟩).conn_start_time = some 3 ∧
    Stats.conn_end 7 (Stats.reset ⟨some 3, 9, 4⟩) = some ⟨some 3, 7 - 3, 1⟩ :=
  (stats_reset_spec ⟨some 3, 9, 4⟩ 7 3).imp id
    (fun h => h.imp id (fun h2 => ⟨h2.1, h2.2 rfl⟩))

/-! ### Direction bucketing (claim C6) -/

/-- Claim C6 as stated is false on the code: a heading of exactly 360°
does not fall outside all buckets — the loop test `360 <= 90*4` succeeds,
so it lands in the last bucket. -/
theorem dir_bucket_C6_counterexample : dir_bucket 360 = some 4 := by decide

/-- Claim C6 (amended): the direction bucket is the first of the 4 equal
90°-sectors whose upper boundary the heading does not exceed; a heading of
exactly 360° falls in the last bucket, and only headings strictly above
360° fall outside all buckets. -/
theorem dir_bucket_spec (d : ℚ) :
    (dir_bucket d = none ↔ 360 < d) ∧
    dir_bucket 360 = some 4 ∧
    (∀ k, dir_bucket d = some k →
      1 ≤ k ∧ k ≤ 4 ∧ d ≤ 90 * (k : ℚ) ∧
      ∀ j, 1 ≤ j → j < k → 90 * (j : ℚ) < d) := by
  refine ⟨?_, by decide, ?_⟩
  · unfold dir_bucket
    split_ifs with h1 h2 h3 h4 <;> simp <;> linarith
  · intro k hk
    unfold dir_bucket at hk
    split_ifs at hk with h1 h2 h3 h4 <;>
      simp only [Option.some.injEq] at hk <;> subst hk <;> push_neg at *
    · exact ⟨le_refl 1, by norm_num, by push_cast; linarith, by omega⟩
    · refine ⟨by norm_num, by norm_num, by push_cast; linarith, ?_⟩
      intro j hj1 hj2
      have : j = 1 := by omega
      subst this
      push_cast
      linarith
    · refine ⟨by norm_num, by norm_num, by push_cast; linarith, ?_⟩
      intro j hj1 hj2
      interval_cases j <;> push_cast <;> linarith
    · refine ⟨by norm_num, by norm_num, by push_cast; linarith, ?_⟩
      intro j hj1 hj2
      interval_cases j <;> push_cast <;> linarith

/-- Witness for C6's amended theorem at heading 200° (bucket 3). -/
theorem dir_bucket_spec_witness :
    1 ≤ 3 ∧ 3 ≤ 4 ∧ (200 : ℚ) ≤ 90 * ((3 : ℕ) : ℚ) ∧
    ∀ j, 1 ≤ j → j < 3 → 90 * ((j : ℕ) : ℚ) < 200 :=
  (dir_bucket_spec 200).2.2 3 (by decide)

/-! ### Arm table (claim C5) -/

lemma histCnt_append (h1 h2 : List (String × ℚ)) (c : String) :
    histCnt (h1 ++ h2) c = histCnt h1 c + histCnt h2 c := by
  simp [histCnt, List.filter_append]

lemma histSum_append (h1 h2 : List (String × ℚ)) (c : String) :
    histSum (h1 ++ h2) c = histSum h1 c + histSum h2 c := by
  simp [histSum, List.filter_append]

lemma histCnt_single (c c' : String) (r : ℚ) :
    histCnt [(c, r)] c' = if c = c' then 1 else 0 := by
  by_cases h : c = c' <;> simp [histCnt, h]

lemma histSum_single (c c' : String) (r : ℚ) :
    histSum [(c, r)] c' = if c = c' then r else 0 := by
  by_cases h : c = c' <;> simp [histSum, h]

lemma histSum_eq_zero_of_cnt (h : List (String × ℚ)) (c : String)
    (hc : histCnt h c = 0) : histSum h c = 0 := by
  have : h.filter (fun p => p.1 = c) = [] := List.length_eq_zero.mp hc
  simp [histSum, this]

lemma tableOf_append_single (h : List (String × ℚ)) (c : String) (r : ℚ) :
    tableOf (h ++ [(c, r)]) =
      ⟨fun x => if x = c then some (histSum h c + r) else (tableOf h).reward x,
       fun x => if x = c then some (histCnt h c + 1) else (tableOf h).count x⟩ := by
  refine ArmTable.ext ?_ ?_ <;> funext x <;> by_cases hx : x = c
  · subst hx
    simp [tableOf, histCnt_append, histSum_append, histCnt_single, histSum_single]
  · have hx' : ¬ c = x := fun h' => hx h'.symm
    simp [tableOf, histCnt_append, histSum_append, histCnt_single,
      histSum_single, hx, hx']
  · subst hx
    simp [tableOf, histCnt_append, histCnt_single]
  · have hx' : ¬ c = x := fun h' => hx h'.symm
    simp [tableOf, histCnt_append, histCnt_single, hx, hx']

lemma record_tableOf (h : List (String × ℚ)) (c : String) (r : ℚ) :
    (tableOf h).record c r = some (tableOf (h ++ [(c, r)])) := by
  rw [tableOf_append_single]
  by_cases hc : histCnt h c = 0
  · have hs := histSum_eq_zero_of_cnt h c hc
    have h1 : (tableOf h).reward c = none := by simp [tableOf, hc]
    have h2 : (tableOf h).ensure c =
        ⟨fun x => if x = c then some 0 else (tableOf h).reward x,
         fun x => if x = c then some 0 else (tableOf h).count x⟩ := by
      unfold ArmTable.ensure
      rw [h1]
      rfl
    have hadd : ((tableOf h).ensure c).add c r
        = some ⟨fun x => if x = c then some (0 + r) else
                  if x = c then some 0 else (tableOf h).reward x,
                fun x => if x = c then some (0 + 1) else
                  if x = c then some 0 else (tableOf h).count x⟩ := by
      rw [h2]
      unfold ArmTable.add
      simp
    unfold ArmTable.record
    rw [hadd]
    refine congrArg some (ArmTable.ext ?_ ?_) <;> funext x <;>
      by_cases hx : x = c <;> simp [hx, hs, hc, tableOf]
  · have h1 : (tableOf h).reward c = some (histSum h c) := by simp [tableOf, hc]
    have h2 : (tableOf h).ensure c = tableOf h := by
      unfold ArmTable.ensure
      rw [h1]
      rfl
    have h3 : (tableOf h).count c = some (histCnt h c) := by simp [tableOf, hc]
    unfold ArmTable.record
    rw [h2]
    unfold ArmTable.add
    rw [h1, h3]

lemma tableOf_nil : tableOf [] = ArmTable.empty := by
  unfold tableOf ArmTable.empty
  ext c <;> simp [histCnt]

lemma armBuild_go (ops : List (String × ℚ)) :
    ∀ h, ops.foldl (fun ot p => ot.bind (fun t => t.record p.1 p.2))
        (some (tableOf h)) = some (tableOf (h ++ ops)) := by
  induction ops with
  | nil => intro h; simp
  | cons p tl ih =>
      intro h
      have step : (some (tableOf h)).bind (fun t => t.record p.1 p.2)
          = some (tableOf (h ++ [p])) := by
        simp [record_tableOf]
      calc (p :: tl).foldl (fun ot p => ot.bind (fun t => t.record p.1 p.2))
              (some (tableOf h))
          = tl.foldl (fun ot p => ot.bind (fun t => t.record p.1 p.2))
              (some (tableOf (h ++ [p]))) := by
            rw [List.foldl_cons, step]
        _ = some (tableOf ((h ++ [p]) ++ tl)) := ih (h ++ [p])
        _ = some (tableOf (h ++ p :: tl)) := by
            rw [List.append_assoc, List.singleton_append]

/-- Claim C5: over any sequence of record operations, `predict` (the
embedding of `get_past_reward`) is `none` for a context never recorded,
is `none` for a context present with zero pulls, and otherwise returns the
running average `cumulative / count` rescaled by the time unit. -/
theorem armTable_predict_spec (ops : List (String × ℚ)) (ctx : String) (tu : ℚ) :
    armBuild ops = some (tableOf ops) ∧
    (histCnt ops ctx = 0 → (tableOf ops).predict ctx tu = none) ∧
    (histCnt ops ctx ≠ 0 →
      (tableOf ops).predict ctx tu
        = some (histSum ops ctx / (histCnt ops ctx : ℚ) * tu)) ∧
    (∀ t : ArmTable, ∀ r, t.reward ctx = some r → t.count ctx = some 0 →
      t.predict ctx tu = none) := by
  refine ⟨?_, ?_, ?_, ?_⟩
  · unfold armBuild
    rw [show some ArmTable.empty = some (tableOf []) from by rw [tableOf_nil]]
    simpa using armBuild_go ops []
  · intro hc
    unfold ArmTable.predict tableOf
    simp [hc]
  · intro hc
    unfold ArmTable.predict tableOf
    simp [hc]
  · intro t r hr hcnt
    unfold ArmTable.predict
    rw [hr, hcnt]
    simp

/-- Witness for C5 with the single-record history `[("a", 3)]`. -/
theorem armTable_predict_spec_witness :
    (tableOf [("a", 3)]).predict "a" 2
      = some (histSum [("a", 3)] "a" / ((histCnt [("a", 3)] "a" : ℕ) : ℚ) * 2) :=
  (armTable_predict_spec [("a", 3)] "a" 2).2.2.1 (by decide)

/-! ### MAB as CMAB with the beam-only encoder (claim C9) -/

/-- Claim C9: the `MAB` policy is the `CMAB` policy with the context
encoder replaced by the beam-only one — `mab_get_context` yields the same
key for every pair of vehicles and qualities under a fixed beam (the key
is determined solely by the beam identity), and the remaining `MAB`
operations are literally the `CMAB` operations instantiated with that
encoder. -/
theorem mab_is_cmab_with_beam_context :
    (∀ us b (v v' : Node) (q q' : ℚ),
      mab_get_context us b v q = mab_get_context us b v' q') ∧
    (∀ us b (v : Node) (q : ℚ),
      mab_get_context us b v q = "[" ++ toString b ++ "]") ∧
    (∀ env conn beams st rand t,
      mab_do_pairing env conn beams st rand t
        = cmab_do_pairing mab_get_context env conn beams st rand t) ∧
    (∀ st t b v q,
      mab_report_conn_confirmed st t b v q
        = report_conn_confirmed mab_get_context st t b v q) :=
  ⟨fun _ _ _ _ _ _ => rfl, fun _ _ _ _ => rfl,
   fun _ _ _ _ _ _ => rfl, fun _ _ _ _ _ => rfl⟩

/-! ### Connection-end bookkeeping of the bandit (claim C10) -/

/-- Claim C10: `report_conn_lost` requires a prior `report_conn_confirmed`
for the same vehicle — with no pending `arm_info` entry it fails with a
missing-key lookup; with one, the realized reward `sim_time - start_time`
is added to the context key both stored at the most recent confirm, whose
pull count is incremented; and a later confirm for the same vehicle
overwrites the earlier pending record. -/
theorem cmab_report_lost_spec (getCtx : CtxEncoder) (st : CMABState) (t : ℚ)
    (b : ℕ) (v : Node) :
    (st.armInfo v.id = none → report_conn_lost st t b v = none) ∧
    (∀ ctx t0 r0 n0 s1 s2,
      st.armInfo v.id = some (ctx, t0) →
      st.arms.reward ctx = some r0 → st.arms.count ctx = some n0 →
      (st.stats b).conn_end t = some s1 → (st.stats2 b).conn_end t = some s2 →
      report_conn_lost st t b v = some
        { st with
          stats := fun b' => if b' = b then s1 else st.stats b',
          stats2 := fun b' => if b' = b then s2 else st.stats2 b',
          arms := ⟨fun c => if c = ctx then some (r0 + (t - t0)) else st.arms.reward c,
                   fun c => if c = ctx then some (n0 + 1) else st.arms.count c⟩ }) ∧
    (∀ t1 t2 b1 b2 q1 q2,
      (report_conn_confirmed getCtx (report_conn_confirmed getCtx st t1 b1 v q1)
          t2 b2 v q2).armInfo v.id = some (getCtx st.useSpeed b2 v q2, t2)) := by
  refine ⟨?_, ?_, ?_⟩
  · intro h
    unfold report_conn_lost
    cases h1 : (st.stats b).conn_end t <;>
      cases h2 : (st.stats2 b).conn_end t <;>
      simp [h, h1, h2]
  · intro ctx t0 r0 n0 s1 s2 hinfo hr hn h1 h2
    have hadd : st.arms.add ctx (t - t0)
        = some ⟨fun c => if c = ctx then some (r0 + (t - t0)) else st.arms.reward c,
                fun c => if c = ctx then some (n0 + 1) else st.arms.count c⟩ := by
      unfold ArmTable.add
      rw [hr, hn]
    unfold report_conn_lost
    rw [h1, h2, hinfo]
    simp [hadd]
  · intro t1 t2 b1 b2 q1 q2
    simp [report_conn_confirmed]

/-- Witness for C10: the pending connection of vehicle `5` in `st1`
(context `"k"`, started at time `3`) is closed at time `7`, adding reward
`7 - 3` to context `"k"` and bumping its pull count from `1` to `2`. -/
theorem cmab_report_lost_spec_witness :
    report_conn_lost st1 7 0 (exNode 5) = some
      { st1 with
        stats := fun b' => if b' = 0 then ⟨some 3, 0 + (7 - 3), 0 + 1⟩
                           else st1.stats b',
        stats2 := fun b' => if b' = 0 then ⟨some 3, 0 + (7 - 3), 0 + 1⟩
                            else st1.stats2 b',
        arms := ⟨fun c => if c = "k" then some (2 + (7 - 3)) else st1.arms.reward c,
                 fun c => if c = "k" then some (1 + 1) else st1.arms.count c⟩ } :=
  (cmab_report_lost_spec mab_get_context st1 7 0 (exNode 5)).2.1
    "k" 3 2 1 ⟨some 3, 0 + (7 - 3), 0 + 1⟩ ⟨some 3, 0 + (7 - 3), 0 + 1⟩
    rfl rfl rfl rfl rfl

/-! ### Greedy-quality scan (claim C2) -/

lemma hfold_inv (cs : List Cand) :
    ∀ (m : ℚ) (c : Cand), c.2.2 = m →
    ∃ m' c', cs.foldl hstep (some m, some c) = (some m', some c') ∧
      c'.2.2 = m' ∧ m ≤ m' ∧ (∀ x ∈ cs, x.2.2 ≤ m') ∧
      ((c' = c ∧ m' = m) ∨
        ∃ l r, cs = l ++ c' :: r ∧ (∀ x ∈ l, x.2.2 < m') ∧ m < m') := by
  induction cs with
  | nil =>
      intro m c hc
      exact ⟨m, c, rfl, hc, le_refl m, by simp, Or.inl ⟨rfl, rfl⟩⟩
  | cons x xs ih =>
      intro m c hc
      by_cases hx : x.2.2 > m
      · have hst : hstep (some m, some c) x = (some x.2.2, some x) := by
          simp [hstep, hx]
        obtain ⟨m', c', heq, hc', hle, hall, hdisj⟩ := ih x.2.2 x rfl
        refine ⟨m', c', ?_, hc', le_of_lt (lt_of_lt_of_le hx hle), ?_, ?_⟩
        · rw [List.foldl_cons, hst, heq]
        · intro y hy
          rcases List.mem_cons.mp hy with rfl | hy'
          · exact hle
          · exact hall y hy'
        · rcases hdisj with ⟨rfl, rfl⟩ | ⟨l, r, hsplit, hl, hlt⟩
          · exact Or.inr ⟨[], xs, by simp, by simp, hx⟩
          · refine Or.inr ⟨x :: l, r, by simp [hsplit], ?_, lt_trans hx hlt⟩
            intro y hy
            rcases List.mem_cons.mp hy with rfl | hy'
            · exact hlt
            · exact hl y hy'
      · have hst : hstep (some m, some c) x = (some m, some c) := by
          simp [hstep, hx]
        obtain ⟨m', c', heq, hc', hle, hall, hdisj⟩ := ih m c hc
        push_neg at hx
        refine ⟨m', c', ?_, hc', hle, ?_, ?_⟩
        · rw [List.foldl_cons, hst, heq]
        · intro y hy
          rcases List.mem_cons.mp hy with rfl | hy'
          · exact le_trans hx hle
          · exact hall y hy'
        · rcases hdisj with h | ⟨l, r, hsplit, hl, hlt⟩
          · exact Or.inl h
          · refine Or.inr ⟨x :: l, r, by simp [hsplit], ?_, hlt⟩
            intro y hy
            rcases List.mem_cons.mp hy with rfl | hy'
            · exact lt_of_le_of_lt hx hlt
            · exact hl y hy'

lemma hfold_top (cs : List Cand) :
    (cs = [] ∧ cs.foldl hstep (none, none) = (none, none)) ∨
    ∃ m' c', cs.foldl hstep (none, none) = (some m', some c') ∧
      c'.2.2 = m' ∧ (∀ x ∈ cs, x.2.2 ≤ m') ∧
      ∃ l r, cs = l ++ c' :: r ∧ (∀ x ∈ l, x.2.2 < m') := by
  cases cs with
  | nil => exact Or.inl ⟨rfl, rfl⟩
  | cons d ds =>
      right
      have hst : hstep (none, none) d = (some d.2.2, some d) := by
        simp [hstep]
      obtain ⟨m', c', heq, hc', hle, hall, hdisj⟩ := hfold_inv ds d.2.2 d rfl
      refine ⟨m', c', ?_, hc', ?_, ?_⟩
      · rw [List.foldl_cons, hst, heq]
      · intro y hy
        rcases List.mem_cons.mp hy with rfl | hy'
        · exact hle
        · exact hall y hy'
      · rcases hdisj with ⟨rfl, rfl⟩ | ⟨l, r, hsplit, hl, hlt⟩
        · exact ⟨[], ds, rfl, by simp⟩
        · refine ⟨d :: l, r, by simp [hsplit], ?_⟩
          intro y hy
          rcases List.mem_cons.mp hy with rfl | hy'
          · exact hlt
          · exact hl y hy'

/-- Claim C2: the `HighestCQI` scan returns a candidate of the
encounter-ordered candidate list that attains the maximal quality, with
ties broken in favour of the first maximum encountered; whenever the
candidate list is nonempty a pair is returned; and on the worked example
`[(1,·,10),(2,·,25),(3,·,25)]` the selection is the beam-2 pair with
quality 25. -/
theorem highestCQI_spec :
    (∀ env conn beams b v q,
      highestCQI_do_pairing env conn beams = some (b, v, q) →
        (b, v, q) ∈ candsH env conn (availOf conn beams) ∧
        (∀ x ∈ candsH env conn (availOf conn beams), x.2.2 ≤ q) ∧
        ∃ l r, candsH env conn (availOf conn beams) = l ++ (b, v, q) :: r ∧
          ∀ x ∈ l, x.2.2 < q) ∧
    (∀ env conn beams, candsH env conn (availOf conn beams) ≠ [] →
      ∃ c, highestCQI_do_pairing env conn beams = some c) ∧
    highestCQI_do_pairing exEnv connEmpty [1, 2, 3] = some (2, exNode 12, 25) := by
  refine ⟨?_, ?_, rfl⟩
  · intro env conn beams b v q hres
    unfold highestCQI_do_pairing at hres
    by_cases he : (availOf conn beams).isEmpty
    · simp [he] at hres
    · simp only [he, Bool.false_eq_true, if_false] at hres
      rcases hfold_top (candsH env conn (availOf conn beams)) with
        ⟨_, heq⟩ | ⟨m', c', heq, hc', hall, l, r, hsplit, hl⟩
      · rw [heq] at hres
        exact absurd hres (by simp)
      · rw [heq] at hres
        simp only [Option.some.injEq] at hres
        subst hres
        have hq : m' = q := hc'.symm
        subst hq
        refine ⟨?_, hall, l, r, hsplit, hl⟩
        rw [hsplit]
        exact List.mem_append_right l (List.mem_cons_self _ _)
  · intro env conn beams hne
    unfold highestCQI_do_pairing
    have he : ¬ (availOf conn beams).isEmpty := by
      intro h
      apply hne
      have : availOf conn beams = [] := List.isEmpty_iff.mp h
      simp [candsH, this]
    simp only [he, Bool.false_eq_true, if_false]
    rcases hfold_top (candsH env conn (availOf conn beams)) with
      ⟨hnil, _⟩ | ⟨m', c', heq, _, _, _⟩
    · exact absurd hnil hne
    · exact ⟨c', by rw [heq]⟩

/-- Witness for C2: the general scan property instantiated on the worked
example environment. -/
theorem highestCQI_spec_witness :
    (2, exNode 12, 25) ∈ candsH exEnv connEmpty (availOf connEmpty [1, 2, 3]) ∧
    (∀ x ∈ candsH exEnv connEmpty (availOf connEmpty [1, 2, 3]), x.2.2 ≤ 25) ∧
    ∃ l r, candsH exEnv connEmpty (availOf connEmpty [1, 2, 3])
        = l ++ (2, exNode 12, 25) :: r ∧ ∀ x ∈ l, x.2.2 < 25 :=
  highestCQI_spec.1 exEnv connEmpty [1, 2, 3] 2 (exNode 12) 25
    highestCQI_spec.2.2

/-! ### Bandit exploitation scan (claims C3 and C4) -/

lemma efold_inv (getCtx : CtxEncoder) (st : CMABState) (cs : List Cand) :
    ∀ (h : ℚ) (sel : Option Cand),
      (∀ c, sel = some c → predOf getCtx st c = some h) →
      ∃ m' sel', cs.foldl (estep getCtx st) (h, sel) = (m', sel') ∧ h ≤ m' ∧
        (∀ c, sel' = some c →
          predOf getCtx st c = some m' ∧ (c ∈ cs ∨ sel = some c)) ∧
        (∀ c ∈ cs, ∀ p, predOf getCtx st c = some p → p ≤ m') ∧
        (sel' = none → m' = h ∧ sel = none) := by
  induction cs with
  | nil =>
      intro h sel hsel
      exact ⟨h, sel, rfl, le_refl h,
        fun c hc => ⟨hsel c hc, Or.inr hc⟩, by simp, fun _ => ⟨rfl, by
          cases hsd : sel with
          | none => rfl
          | some d => simp_all⟩⟩
  | cons c cs ih =>
      intro h sel hsel
      cases hp : predOf getCtx st c with
      | none =>
          have hst : estep getCtx st (h, sel) c = (h, sel) := by
            simp [estep, hp]
          obtain ⟨m', sel', heq, hle, hsome, hall, hnone⟩ := ih h sel hsel
          refine ⟨m', sel', by rw [List.foldl_cons, hst, heq], hle, ?_, ?_, hnone⟩
          · intro d hd
            obtain ⟨h1, h2⟩ := hsome d hd
            exact ⟨h1, h2.imp (List.mem_cons_of_mem c) id⟩
          · intro y hy p hpy
            rcases List.mem_cons.mp hy with rfl | hy'
            · rw [hp] at hpy
              exact absurd hpy (by simp)
            · exact hall y hy' p hpy
      | some p =>
          by_cases hpgt : p > h
          · have hst : estep getCtx st (h, sel) c = (p, some c) := by
              simp [estep, hp, hpgt]
            obtain ⟨m', sel', heq, hle, hsome, hall, hnone⟩ :=
              ih p (some c) (fun d hd => by
                obtain rfl : c = d := by injection hd
                exact hp)
            refine ⟨m', sel', by rw [List.foldl_cons, hst, heq],
              le_of_lt (lt_of_lt_of_le hpgt hle), ?_, ?_, ?_⟩
            · intro d hd
              obtain ⟨h1, h2⟩ := hsome d hd
              refine ⟨h1, Or.inl ?_⟩
              rcases h2 with h2 | h2
              · exact List.mem_cons_of_mem c h2
              · obtain rfl : c = d := by injection h2
                exact List.mem_cons_self _ _
            · intro y hy py hpy
              rcases List.mem_cons.mp hy with rfl | hy'
              · rw [hp] at hpy
                obtain rfl : p = py := by injection hpy
                exact hle
              · exact hall y hy' py hpy
            · intro hn
              obtain ⟨_, habs⟩ := hnone hn
              exact absurd habs (by simp)
          · have hst : estep getCtx st (h, sel) c = (h, sel) := by
              simp [estep, hp, hpgt]
            obtain ⟨m', sel', heq, hle, hsome, hall, hnone⟩ := ih h sel hsel
            push_neg at hpgt
            refine ⟨m', sel', by rw [List.foldl_cons, hst, heq], hle, ?_, ?_, hnone⟩
            · intro d hd
              obtain ⟨h1, h2⟩ := hsome d hd
              exact ⟨h1, h2.imp (List.mem_cons_of_mem c) id⟩
            · intro y hy py hpy
              rcases List.mem_cons.mp hy with rfl | hy'
              · rw [hp] at hpy
                obtain rfl : p = py := by injection hpy
                exact le_trans hpgt hle
              · exact hall y hy' py hpy

lemma exploit_scan_spec (getCtx : CtxEncoder) (st : CMABState) (cs : List Cand) :
    (∀ c, (cs.foldl (estep getCtx st) (-1, none)).2 = some c →
      predOf getCtx st c = some (cs.foldl (estep getCtx st) (-1, none)).1 ∧
      c ∈ cs ∧
      ∀ c' ∈ cs, ∀ p', predOf getCtx st c' = some p' →
        p' ≤ (cs.foldl (estep getCtx st) (-1, none)).1) ∧
    ((cs.foldl (estep getCtx st) (-1, none)).2 = none →
      ∀ c ∈ cs, ∀ p, predOf getCtx st c = some p → p ≤ -1) := by
  obtain ⟨m', sel', heq, _, hsome, hall, hnone⟩ :=
    efold_inv getCtx st cs (-1) none (fun c hc => by simp at hc)
  rw [heq]
  constructor
  · intro c hc
    obtain ⟨h1, h2⟩ := hsome c hc
    refine ⟨h1, ?_, fun c' hc' p' hp' => hall c' hc' p' hp'⟩
    rcases h2 with h2 | h2
    · exact h2
    · exact absurd h2 (by simp)
  · intro hn c hc p hp
    obtain ⟨rfl, _⟩ := hnone hn
    exact hall c hc p hp

lemma efold_all_none (getCtx : CtxEncoder) (st : CMABState) (cs : List Cand) :
    ∀ acc, (∀ c ∈ cs, predOf getCtx st c = none) →
      cs.foldl (estep getCtx st) acc = acc := by
  induction cs with
  | nil => intro acc _; rfl
  | cons c cs ih =>
      intro acc hall
      have hst : estep getCtx st acc c = acc := by
        simp [estep, hall c (List.mem_cons_self _ _)]
      rw [List.foldl_cons, hst]
      exact ih acc (fun d hd => hall d (List.mem_cons_of_mem c hd))

/-- Claim C4: in the exploitation phase the bandit selects only among
candidates whose context key has a defined (non-`none`) predicted reward,
and any returned candidate attains the maximal defined prediction; when
some candidate has a defined, nonnegative prediction a selection is made;
and with an empty arm table the call returns `none` even when eligible,
successfully-probed candidates exist. -/
theorem cmab_exploit_spec :
    (∀ getCtx env conn beams st rand t c, ¬ t < st.explorationStopTime →
      (cmab_do_pairing getCtx env conn beams st rand t).1 = some c →
        c ∈ cmabCands env conn beams ∧
        ∃ p, predOf getCtx st c = some p ∧
          ∀ c' ∈ cmabCands env conn beams, ∀ p',
            predOf getCtx st c' = some p' → p' ≤ p) ∧
    (∀ getCtx env conn beams st rand t c0 p0, ¬ t < st.explorationStopTime →
      c0 ∈ cmabCands env conn beams → predOf getCtx st c0 = some p0 → 0 ≤ p0 →
      ∃ c', (cmab_do_pairing getCtx env conn beams st rand t).1 = some c') ∧
    (∀ getCtx env conn beams st rand t, ¬ t < st.explorationStopTime →
      (∀ ctx, st.arms.reward ctx = none) →
      (cmab_do_pairing getCtx env conn beams st rand t).1 = none) := by
  refine ⟨?_, ?_, ?_⟩
  · intro getCtx env conn beams st rand t c ht hres
    simp only [cmab_do_pairing, ht, if_false] at hres
    by_cases he : (availOf conn beams).isEmpty
    · simp [he] at hres
    · simp only [he, Bool.false_eq_true, if_false] at hres
      obtain ⟨h1, h2, h3⟩ := (exploit_scan_spec getCtx st
        (candsH env conn (availOf conn beams))).1 c hres
      exact ⟨h2, _, h1, h3⟩
  · intro getCtx env conn beams st rand t c0 p0 ht hmem hpred hp0
    simp only [cmab_do_pairing, ht, if_false]
    by_cases he : (availOf conn beams).isEmpty
    · have hnil : cmabCands env conn beams = [] := by
        unfold cmabCands candsH
        rw [List.isEmpty_iff.mp he]
        rfl
      rw [hnil] at hmem
      exact absurd hmem (List.not_mem_nil c0)
    · simp only [he, Bool.false_eq_true, if_false]
      cases hres : ((candsH env conn (availOf conn beams)).foldl
          (estep getCtx st) (-1, none)).2 with
      | some c' => exact ⟨c', rfl⟩
      | none =>
          have := (exploit_scan_spec getCtx st
            (candsH env conn (availOf conn beams))).2 hres c0 hmem p0 hpred
          linarith
  · intro getCtx env conn beams st rand t ht hempty
    have hnone : ∀ c, predOf getCtx st c = none := by
      intro c
      unfold predOf get_past_reward ArmTable.predict
      rw [hempty]
    simp only [cmab_do_pairing, ht, if_false]
    by_cases he : (availOf conn beams).isEmpty
    · simp [he]
    · simp only [he, Bool.false_eq_true, if_false]
      rw [efold_all_none getCtx st _ _ (fun c _ => hnone c)]

/-- Witness for C4's cold-start clause: with the empty arm table of `st0`
and the worked-example environment (which offers three eligible probed
candidates), exploitation returns no pairing. -/
theorem cmab_exploit_spec_witness :
    (cmab_do_pairing mab_get_context exEnv connEmpty [1, 2, 3] st0 [] 1).1
      = none :=
  cmab_exploit_spec.2.2 mab_get_context exEnv connEmpty [1, 2, 3] st0 [] 1
    (by decide) (fun _ => rfl)

/-- Claim C3 as stated is false on the code: in the exploitation phase with
no idle beam, `do_pairing` returns early and the pulled-arm counter is not
incremented. -/
theorem cmab_pull_counter_C3_counterexample :
    ¬ ((1 : ℚ) < st0.explorationStopTime) ∧
    (cmab_do_pairing mab_get_context env0 connEmpty [] st0 [] 1).2.1.totalPulled
      ≠ st0.totalPulled + 1 :=
  ⟨by decide, by decide⟩

/-- Claim C3 (amended): before the exploration cutoff the bandit's
`do_pairing` delegates entirely to `RandomSelection.do_pairing` and
increments the pulled-arm counter; at or after the cutoff the result is
independent of the random source and determined by predicted-reward
ranking over the arm table, and the counter is incremented — except that
when no idle beam exists the call returns `none` early, leaving the
counter unchanged. -/
theorem cmab_phase_spec :
    (∀ getCtx env conn beams st rand t, t < st.explorationStopTime →
      cmab_do_pairing getCtx env conn beams st rand t
        = ((random_do_pairing env conn beams rand).1,
           { st with totalPulled := st.totalPulled + 1 },
           (random_do_pairing env conn beams rand).2)) ∧
    (∀ getCtx env conn beams st rand rand' t, ¬ t < st.explorationStopTime →
      (cmab_do_pairing getCtx env conn beams st rand t).1
        = (cmab_do_pairing getCtx env conn beams st rand' t).1) ∧
    (∀ getCtx env conn beams st rand t c, ¬ t < st.explorationStopTime →
      (cmab_do_pairing getCtx env conn beams st rand t).1 = some c →
      ∃ p, predOf getCtx st c = some p ∧
        ∀ c' ∈ cmabCands env conn beams, ∀ p',
          predOf getCtx st c' = some p' → p' ≤ p) ∧
    (∀ getCtx env conn beams st rand t, ¬ t < st.explorationStopTime →
      availOf conn beams ≠ [] →
      (cmab_do_pairing getCtx env conn beams st rand t).2.1
        = { st with totalPulled := st.totalPulled + 1 }) ∧
    (∀ getCtx env conn beams st rand t, ¬ t < st.explorationStopTime →
      availOf conn beams = [] →
      cmab_do_pairing getCtx env conn beams st rand t = (none, st, rand)) := by
  refine ⟨?_, ?_, ?_, ?_, ?_⟩
  · intro getCtx env conn beams st rand t ht
    simp [cmab_do_pairing, ht]
  · intro getCtx env conn beams st rand rand' t ht
    by_cases he : (availOf conn beams).isEmpty <;>
      simp [cmab_do_pairing, ht, he]
  · intro getCtx env conn beams st rand t c ht hres
    simp only [cmab_do_pairing, ht, if_false] at hres
    by_cases he : (availOf conn beams).isEmpty
    · simp [he] at hres
    · simp only [he, Bool.false_eq_true, if_false] at hres
      obtain ⟨h1, _, h3⟩ := (exploit_scan_spec getCtx st
        (candsH env conn (availOf conn beams))).1 c hres
      exact ⟨_, h1, h3⟩
  · intro getCtx env conn beams st rand t ht hne
    have he : ¬ (availOf conn beams).isEmpty := by
      simpa [List.isEmpty_iff] using hne
    simp [cmab_do_pairing, ht, he]
  · intro getCtx env conn beams st rand t ht ha
    simp [cmab_do_pairing, ht, ha]

/-- Witness for C3's amended theorem: an exploration-phase call on `st2`
delegates to the random policy and bumps the counter. -/
theorem cmab_phase_spec_witness :
    cmab_do_pairing mab_get_context env0 connEmpty [] st2 [] 1
      = ((random_do_pairing env0 connEmpty [] []).1,
         { st2 with totalPulled := st2.totalPulled + 1 },
         (random_do_pairing env0 connEmpty [] []).2) :=
  cmab_phase_spec.1 mab_get_context env0 connEmpty [] st2 [] 1 (by decide)

/-! ### Allocation-loop invariant (claim C1) -/

lemma mem_availOf (conn : ConnState) (beams : List ℕ) (b : ℕ) :
    b ∈ availOf conn beams → conn.serving b = none := by
  intro h
  have h2 := (List.mem_filter.mp h).2
  exact Option.isNone_iff_eq_none.mp h2

lemma mem_eligibleH (env : Env) (conn : ConnState) (b : ℕ) (v : Node) (q : ℚ) :
    (v, q) ∈ eligibleH env conn b → conn.assoc v.id = none := by
  intro h
  unfold eligibleH at h
  obtain ⟨p, hmem, hres⟩ := List.mem_filterMap.mp h
  by_cases h1 : p.1.isVehicle
  · rw [if_pos h1] at hres
    by_cases h2 : (conn.assoc p.1.id).isSome
    · rw [if_pos h2] at hres
      exact absurd hres (by simp)
    · rw [if_neg h2] at hres
      obtain ⟨q', _, heq⟩ := Option.map_eq_some'.mp hres
      have hp1 : p.1 = v := congrArg Prod.fst heq
      rw [← hp1]
      exact Option.not_isSome_iff_eq_none.mp h2
  · rw [if_neg h1] at hres
    exact absurd hres (by simp)

lemma mem_eligibleR (env : Env) (conn : ConnState) (b : ℕ) (v : Node) (q : ℚ) :
    (v, q) ∈ eligibleR env conn b → conn.assoc v.id = none := by
  intro h
  unfold eligibleR at h
  obtain ⟨p, hmem, hres⟩ := List.mem_filterMap.mp h
  by_cases h1 : p.1.isVehicle
  · rw [if_pos h1] at hres
    by_cases h2 : (conn.assoc p.1.id).isSome
    · rw [if_pos h2] at hres
      exact absurd hres (by simp)
    · rw [if_neg h2] at hres
      obtain ⟨q', _, heq⟩ := Option.map_eq_some'.mp hres
      have hp1 : p.1 = v := congrArg Prod.fst heq
      rw [← hp1]
      exact Option.not_isSome_iff_eq_none.mp h2
  · rw [if_neg h1] at hres
    exact absurd hres (by simp)

lemma mem_candsH (env : Env) (conn : ConnState) (avail : List ℕ) (b : ℕ)
    (v : Node) (q : ℚ) :
    (b, v, q) ∈ candsH env conn avail →
      b ∈ avail ∧ (v, q) ∈ eligibleH env conn b := by
  intro h
  unfold candsH at h
  obtain ⟨b', hb', hmap⟩ := List.mem_flatMap.mp h
  obtain ⟨vq, hvq, heq⟩ := List.mem_map.mp hmap
  obtain ⟨hb, hv, hq⟩ : b' = b ∧ vq.1 = v ∧ vq.2 = q := by
    injection heq with h1 h2
    injection h2 with h2a h2b
    exact ⟨h1, h2a, h2b⟩
  subst hb hv hq
  exact ⟨hb', hvq⟩

lemma cand_sound (env : Env) (conn : ConnState) (beams : List ℕ) (b : ℕ)
    (v : Node) (q : ℚ) :
    (b, v, q) ∈ candsH env conn (availOf conn beams) →
      conn.serving b = none ∧ conn.assoc v.id = none := by
  intro h
  obtain ⟨hb, hv⟩ := mem_candsH env conn (availOf conn beams) b v q h
  exact ⟨mem_availOf conn beams b hb, mem_eligibleH env conn b v q hv⟩

lemma Inv.lost (conn : ConnState) (b v : ℕ) (h : Inv conn)
    (hs : conn.serving b = some v) : Inv (lost_vehicle conn b v) := by
  obtain ⟨h1, h2⟩ := h
  constructor
  · intro b' v' hserve
    simp only [lost_vehicle] at hserve ⊢
    by_cases hb : b' = b
    · rw [if_pos hb] at hserve
      exact absurd hserve (by simp)
    · rw [if_neg hb] at hserve
      have ha := h1 b' v' hserve
      have hv : ¬ v' = v := by
        intro hv
        subst hv
        have hbv := h1 b v' hs
        rw [ha] at hbv
        exact hb (Option.some.inj hbv)
      rw [if_neg hv]
      exact ha
  · intro v' b' hassoc
    simp only [lost_vehicle] at hassoc ⊢
    by_cases hv : v' = v
    · rw [if_pos hv] at hassoc
      exact absurd hassoc (by simp)
    · rw [if_neg hv] at hassoc
      have hserve := h2 v' b' hassoc
      have hb : ¬ b' = b := by
        intro hb
        subst hb
        rw [hs] at hserve
        exact hv (Option.some.inj hserve).symm
      rw [if_neg hb]
      exact hserve

lemma Inv.connect (conn : ConnState) (b v : ℕ) (h : Inv conn)
    (hb : conn.serving b = none) (hv : conn.assoc v = none) :
    Inv (connect_vehicle conn b v) := by
  obtain ⟨h1, h2⟩ := h
  constructor
  · intro b' v' hserve
    simp only [connect_vehicle] at hserve ⊢
    by_cases hbb : b' = b
    · rw [if_pos hbb] at hserve
      obtain rfl : v = v' := Option.some.inj hserve
      rw [if_pos rfl]
      exact congrArg some hbb.symm
    · rw [if_neg hbb] at hserve
      have ha := h1 b' v' hserve
      have hvv : ¬ v' = v := by
        intro hvv
        subst hvv
        rw [hv] at ha
        exact Option.noConfusion ha
      rw [if_neg hvv]
      exact ha
  · intro v' b' hassoc
    simp only [connect_vehicle] at hassoc ⊢
    by_cases hvv : v' = v
    · rw [if_pos hvv] at hassoc
      obtain rfl : b = b' := Option.some.inj hassoc
      rw [if_pos rfl]
      exact congrArg some hvv.symm
    · rw [if_neg hvv] at hassoc
      have hserve := h2 v' b' hassoc
      have hbb : ¬ b' = b := by
        intro hbb
        subst hbb
        rw [hb] at hserve
        exact Option.noConfusion hserve
      rw [if_neg hbb]
      exact hserve

lemma Inv.release (env : Env) (beams : List ℕ) :
    ∀ conn, Inv conn → Inv (do_release env beams conn) := by
  induction beams with
  | nil => intro conn h; exact h
  | cons b bs ih =>
      intro conn h
      unfold do_release
      rw [List.foldl_cons]
      apply ih
      cases hs : conn.serving b with
      | none => simpa [hs] using h
      | some v =>
          simp only [hs]
          by_cases hh : (env.hello b v).isSome
          · rw [if_pos hh]
            exact h
          · rw [if_neg hh]
            exact Inv.lost conn b v h hs

lemma Inv.fill {σ : Type} (step : ConnState → σ → Option Cand × σ)
    (hsound : SoundStep step) :
    ∀ n conn s, Inv conn → Inv (do_fill step n conn s).1 := by
  intro n
  induction n with
  | zero => intro conn s h; exact h
  | succ n ih =>
      intro conn s h
      unfold do_fill
      cases hstep : step conn s with
      | mk opt s' =>
          cases opt with
          | none => simpa [hstep] using h
          | some c =>
              obtain ⟨b, v, q⟩ := c
              obtain ⟨hb, hv⟩ := hsound conn s b v q s' hstep
              simp only [hstep]
              exact ih (connect_vehicle conn b v.id) s'
                (Inv.connect conn b v.id h hb hv)

lemma highest_sound (env : Env) (beams : List ℕ) :
    SoundStep (highestStep env beams) := by
  intro conn s b v q s' h
  have hres : highestCQI_do_pairing env conn beams = some (b, v, q) := by
    injection h
  unfold highestCQI_do_pairing at hres
  by_cases he : (availOf conn beams).isEmpty
  · simp [he] at hres
  · simp only [he, Bool.false_eq_true, if_false] at hres
    rcases hfold_top (candsH env conn (availOf conn beams)) with
      ⟨_, heq⟩ | ⟨m', c', heq, _, _, l, r, hsplit, _⟩
    · rw [heq] at hres
      exact absurd hres (by simp)
    · rw [heq] at hres
      simp only [Option.some.injEq] at hres
      subst hres
      refine cand_sound env conn beams b v q ?_
      rw [hsplit]
      exact List.mem_append_right l (List.mem_cons_self _ _)

lemma randGo_sound (env : Env) (conn : ConnState) :
    ∀ (n : ℕ) (avail rand : List ℕ), avail.length ≤ n →
      (∀ x ∈ avail, conn.serving x = none) →
      ∀ b v q rand', randGo env conn avail rand = (some (b, v, q), rand') →
        conn.serving b = none ∧ conn.assoc v.id = none := by
  intro n
  induction n with
  | zero =>
      intro avail rand hlen hav b v q rand' hres
      obtain rfl : avail = [] := List.length_eq_zero.mp (Nat.le_zero.mp hlen)
      simp [randGo] at hres
  | succ n ih =>
      intro avail rand hlen hav b v q rand' hres
      cases avail with
      | nil => simp [randGo] at hres
      | cons a rest =>
          rw [randGo] at hres
          by_cases hvl : (eligibleR env conn
              ((a :: rest).get ⟨(rand.headD 0) % (a :: rest).length,
                Nat.mod_lt _ (Nat.succ_pos _)⟩)).length = 0
          · rw [dif_pos hvl] at hres
            refine ih ((a :: rest).erase _) rand.tail ?_ ?_ b v q rand' hres
            · have hmem := List.get_mem (a :: rest)
                ((rand.headD 0) % (a :: rest).length)
                (Nat.mod_lt _ (Nat.succ_pos _))
              rw [List.length_erase_of_mem hmem]
              simpa using Nat.le_of_succ_le_succ hlen
            · intro x hx
              exact hav x (List.erase_subset _ _ hx)
          · rw [dif_neg hvl] at hres
            injection hres with h1 h2
            injection h1 with h1
            injection h1 with ha hbc
            injection hbc with hb2 hc2
            subst ha hb2 hc2
            constructor
            · exact hav _ (List.get_mem _ _ _)
            · exact mem_eligibleR env conn _ _ _ (List.get_mem _ _ _)

lemma random_sound (env : Env) (beams : List ℕ) :
    SoundStep (randomStep env beams) := by
  intro conn rand b v q rand' h
  exact randGo_sound env conn (availOf conn beams).length (availOf conn beams)
    rand (le_refl _) (fun x hx => mem_availOf conn beams x hx) b v q rand' h

lemma cmab_pairing_sound (getCtx : CtxEncoder) (env : Env) (conn : ConnState)
    (beams : List ℕ) (st : CMABState) (rand : List ℕ) (t : ℚ) (b : ℕ) (v : Node)
    (q : ℚ) (st' : CMABState) (rand' : List ℕ) :
    cmab_do_pairing getCtx env conn beams st rand t = (some (b, v, q), st', rand') →
    conn.serving b = none ∧ conn.assoc v.id = none := by
  intro h
  unfold cmab_do_pairing at h
  by_cases ht : t < st.explorationStopTime
  · rw [if_pos ht] at h
    cases hr : random_do_pairing env conn beams rand with
    | mk o r2 =>
        rw [hr] at h
        have ho : o = some (b, v, q) := by injection h
        subst ho
        exact randGo_sound env conn (availOf conn beams).length
          (availOf conn beams) rand (le_refl _)
          (fun x hx => mem_availOf conn beams x hx) b v q r2 hr
  · rw [if_neg ht] at h
    by_cases he : (availOf conn beams).isEmpty
    · rw [if_pos he] at h
      have : (none : Option Cand) = some (b, v, q) := by injection h
      exact absurd this (by simp)
    · rw [if_neg he] at h
      have h1 : ((candsH env conn (availOf conn beams)).foldl
          (estep getCtx st) (-1, none)).2 = some (b, v, q) := by
        injection h
      obtain ⟨_, hmem, _⟩ := (exploit_scan_spec getCtx st
        (candsH env conn (availOf conn beams))).1 _ h1
      exact cand_sound env conn beams b v q hmem

lemma cmabStep_sound (getCtx : CtxEncoder) (env : Env) (beams : List ℕ) (t : ℚ) :
    SoundStep (cmabStep getCtx env beams t) := by
  intro conn p b v q s' h
  unfold cmabStep at h
  cases hr : cmab_do_pairing getCtx env conn beams p.1 p.2 t with
  | mk o rest =>
      obtain ⟨rst, rrand⟩ := rest
      rw [hr] at h
      cases o with
      | none => exact absurd (show (none : Option Cand) = some (b, v, q) by
          injection h) (by simp)
      | some c =>
          obtain ⟨b0, v0, q0⟩ := c
          obtain ⟨hb, hv, hq⟩ : b0 = b ∧ v0 = v ∧ q0 = q := by
            have h1 : some (b0, v0, q0) = some (b, v, q) := by injection h
            injection h1 with h1
            injection h1 with ha hbc
            injection hbc with hbb hcc
            exact ⟨ha, hbb, hcc⟩
          subst hb hv hq
          exact cmab_pairing_sound getCtx env conn beams p.1 p.2 t b0 v0 q0
            rst rrand hr

/-- Claim C1: the 1:1 reference invariant — a beam's serving reference and
its client's back-reference are mutual inverses, hence a client is served
by at most one beam, and a beam's serving reference is `none` exactly when
it is idle — is preserved by every `do_mobility` tick for any policy step
that proposes only idle beams and unserved vehicles, a property the
`HighestCQI`, `RandomSelection` and `CMAB`/`MAB` policies all enjoy. -/
theorem conn_invariant_spec :
    (∀ (σ : Type) (step : ConnState → σ → Option Cand × σ), SoundStep step →
      ∀ env beams maxActive conn s, Inv conn →
        Inv (do_mobility env beams maxActive step conn s).1) ∧
    (∀ conn b, beamIdle conn b ↔ conn.serving b = none) ∧
    (∀ conn, Inv conn →
      ∀ b v, conn.serving b = some v ↔ conn.assoc v = some b) ∧
    (∀ conn, Inv conn → ∀ b b' v, conn.serving b = some v →
      conn.serving b' = some v → b = b') ∧
    (∀ env beams, SoundStep (highestStep env beams)) ∧
    (∀ env beams, SoundStep (randomStep env beams)) ∧
    (∀ getCtx env beams t, SoundStep (cmabStep getCtx env beams t)) := by
  refine ⟨?_, ?_, ?_, ?_, highest_sound, random_sound, cmabStep_sound⟩
  · intro σ step hs env beams maxA conn s h
    unfold do_mobility
    exact Inv.fill step hs _ _ s (Inv.release env beams conn h)
  · intro conn b
    exact Iff.rfl
  · intro conn h b v
    exact ⟨fun hs => h.1 b v hs, fun ha => h.2 v b ha⟩
  · intro conn h b b' v h1 h2
    have e1 := h.1 b v h1
    have e2 := h.1 b' v h2
    rw [e1] at e2
    exact Option.some.inj e2

/-- Witness for C1: a tick of the greedy policy in a concrete empty world
preserves the invariant from the empty connection state. -/
theorem conn_invariant_spec_witness :
    Inv (do_mobility env0 [0] 1 (highestStep env0 [0]) connEmpty ()).1 :=
  conn_invariant_spec.1 Unit (highestStep env0 [0])
    (conn_invariant_spec.2.2.2.2.1 env0 [0]) env0 [0] 1 connEmpty ()
    ⟨fun _ _ h => Option.noConfusion h, fun _ _ h => Option.noConfusion h⟩

end PaperCmab
